import Mathlib

/-!
# Verification of the requirements-management core

A shallow embedding, in Lean 4, of the versioning / blocking / commenting /
notification core of the study-project web application (files
`app/models.py`, `app/agent.py`, `app/routes.py`, `app/utils/notifications.py`).

Strings are modelled by Lean `String` (Python `str` is a sequence of Unicode
codepoints, as is `String.data`); database rows become structures, SQLAlchemy
queries over tables become functions over lists kept in query order, and
`datetime` values become abstract `Nat` timestamps.
-/

namespace StudyProject

/-! ## Key normalization (`agent.normalize_key`)

Python: `s = title.strip().lower(); s = re.sub(r"\s+", " ", s)`, with an
early `return ""` for a falsy (empty) title.  `isPySpace` is the Python
whitespace class restricted to its ASCII members (space, `\t`, `\n`, `\r`,
`\v`, `\f`), which is what `str.strip` and `\s` match on ASCII text;
`Char.toLower` is exactly CPython's per-character ASCII lowering. -/

def isPySpace (c : Char) : Bool :=
  c.toNat == 32 || c.toNat == 9 || c.toNat == 10 || c.toNat == 13 ||
    c.toNat == 11 || c.toNat == 12

/-- Python `str.strip()`: drop leading and trailing whitespace. -/
def pyStrip (l : List Char) : List Char :=
  ((l.dropWhile isPySpace).reverse.dropWhile isPySpace).reverse

/-- `re.sub(r"\s+", " ", ·)`: replace every maximal whitespace run by a single
space.  The `Bool` state records whether the previous character was part of a
whitespace run. -/
def collapseWS : Bool → List Char → List Char
  | _, [] => []
  | prev, c :: rest =>
    if isPySpace c then
      if prev then collapseWS true rest else ' ' :: collapseWS true rest
    else
      c :: collapseWS false rest

theorem collapseWS_cons_space_true {a : Char} {rest : List Char} (hs : isPySpace a = true) :
    collapseWS true (a :: rest) = collapseWS true rest := by
  simp [collapseWS, hs]

theorem collapseWS_cons_space_false {a : Char} {rest : List Char} (hs : isPySpace a = true) :
    collapseWS false (a :: rest) = ' ' :: collapseWS true rest := by
  simp [collapseWS, hs]

theorem collapseWS_cons_nonspace (b : Bool) {a : Char} {rest : List Char}
    (hs : isPySpace a = false) :
    collapseWS b (a :: rest) = a :: collapseWS false rest := by
  simp [collapseWS, hs]

/-- `agent.normalize_key`: `strip`, then `lower`, then collapse whitespace. -/
def normalize_key (t : String) : String :=
  if t = "" then ""
  else ⟨collapseWS false ((pyStrip t.data).map Char.toLower)⟩

/-- The spec's wording of the algorithm ("lower-case, trim, collapse internal
whitespace runs to single spaces"), lowering first. -/
def normalizeKeySpec (t : String) : String :=
  ⟨collapseWS false (pyStrip (t.data.map Char.toLower))⟩

theorem char_toNat_ofNat_valid {n : Nat} (h : n < 55296) : (Char.ofNat n).toNat = n := by
  have hv : n.isValidChar := Or.inl h
  rw [Char.ofNat, dif_pos hv]
  simp [Char.ofNatAux, Char.toNat, UInt32.toNat]

theorem toLower_eq_self (c : Char) (h : ¬(65 ≤ c.toNat ∧ c.toNat ≤ 90)) :
    Char.toLower c = c := by
  simp only [Char.toLower, ge_iff_le]
  rw [if_neg h]

theorem toNat_toLower (c : Char) :
    (Char.toLower c).toNat = if 65 ≤ c.toNat ∧ c.toNat ≤ 90 then c.toNat + 32 else c.toNat := by
  by_cases h : 65 ≤ c.toNat ∧ c.toNat ≤ 90
  · rw [if_pos h]
    simp only [Char.toLower, ge_iff_le]
    rw [if_pos h, char_toNat_ofNat_valid (by omega)]
  · rw [if_neg h, toLower_eq_self c h]

theorem isPySpace_toLower (c : Char) : isPySpace (Char.toLower c) = isPySpace c := by
  by_cases h : 65 ≤ c.toNat ∧ c.toNat ≤ 90
  · have hL : isPySpace (Char.toLower c) = false := by
      simp only [isPySpace, toNat_toLower, if_pos h, Bool.or_eq_false_iff,
        beq_eq_false_iff_ne, ne_eq]
      omega
    have hR : isPySpace c = false := by
      simp only [isPySpace, Bool.or_eq_false_iff, beq_eq_false_iff_ne, ne_eq]
      omega
    rw [hL, hR]
  · rw [toLower_eq_self c h]

theorem toLower_toLower (c : Char) : Char.toLower (Char.toLower c) = Char.toLower c := by
  by_cases h : 65 ≤ c.toNat ∧ c.toNat ≤ 90
  · apply toLower_eq_self
    rw [toNat_toLower, if_pos h]
    omega
  · rw [toLower_eq_self c h, toLower_eq_self c h]

theorem toLower_space : Char.toLower ' ' = ' ' := by decide

/-- `collapseWS` commutes with lowering, because lowering never changes
whitespace-ness and the inserted `' '` is already lower case. -/
theorem map_toLower_collapseWS (l : List Char) : ∀ (b : Bool),
    (collapseWS b l).map Char.toLower = collapseWS b (l.map Char.toLower) := by
  induction l with
  | nil => intro b; rfl
  | cons c rest ih =>
    intro b
    simp only [collapseWS, List.map_cons, isPySpace_toLower]
    by_cases hs : isPySpace c = true
    · rw [hs]
      simp only [if_true]
      cases b with
      | true => simpa using ih true
      | false =>
        simp only [Bool.false_eq_true, if_false, List.map_cons, toLower_space]
        rw [ih true]
    · rw [Bool.not_eq_true] at hs
      rw [hs]
      simp only [Bool.false_eq_true, if_false, List.map_cons]
      rw [ih false]

/-- Stripping commutes with lowering. -/
theorem pyStrip_map_toLower (l : List Char) :
    pyStrip (l.map Char.toLower) = (pyStrip l).map Char.toLower := by
  have hfe : (isPySpace ∘ Char.toLower) = isPySpace := funext isPySpace_toLower
  have hdw : ∀ (m : List Char),
      (m.map Char.toLower).dropWhile isPySpace = (m.dropWhile isPySpace).map Char.toLower := by
    intro m
    rw [List.dropWhile_map, hfe]
  unfold pyStrip
  rw [hdw, ← List.map_reverse, hdw, ← List.map_reverse]

/-- Every character of a collapsed string is a space character `' '` or comes
from the input. -/
theorem mem_collapseWS (l : List Char) : ∀ (b : Bool) (c : Char),
    c ∈ collapseWS b l → c = ' ' ∨ c ∈ l := by
  induction l with
  | nil => intro b c h; simp [collapseWS] at h
  | cons a rest ih =>
    intro b c h
    simp only [collapseWS] at h
    by_cases hs : isPySpace a = true
    · rw [hs, if_pos rfl] at h
      have h' : c = ' ' ∨ c ∈ collapseWS true rest := by
        cases b with
        | true => exact Or.inr h
        | false =>
          simp only [Bool.false_eq_true, if_false, List.mem_cons] at h
          rcases h with rfl | h
          · exact Or.inl rfl
          · exact Or.inr h
      rcases h' with rfl | h'
      · exact Or.inl rfl
      · rcases ih true c h' with h'' | h''
        · exact Or.inl h''
        · exact Or.inr (List.mem_cons_of_mem _ h'')
    · rw [Bool.not_eq_true] at hs
      rw [hs] at h
      simp only [Bool.false_eq_true, if_false, List.mem_cons] at h
      rcases h with rfl | h
      · exact Or.inr (List.mem_cons_self _ _)
      · rcases ih false c h with h'' | h''
        · exact Or.inl h''
        · exact Or.inr (List.mem_cons_of_mem _ h'')

/-- Collapsing whitespace is idempotent (for any starting state pair). -/
theorem collapseWS_collapseWS : ∀ (l : List Char),
    collapseWS false (collapseWS false l) = collapseWS false l ∧
    collapseWS false (collapseWS true l) = collapseWS true l ∧
    collapseWS true (collapseWS true l) = collapseWS true l
  | [] => by simp [collapseWS]
  | c :: rest => by
    have IH := collapseWS_collapseWS rest
    by_cases hs : isPySpace c = true
    · constructor
      · show collapseWS false (collapseWS false (c :: rest)) = collapseWS false (c :: rest)
        simp only [collapseWS, hs, if_true, Bool.false_eq_true, if_false]
        have hsp : isPySpace ' ' = true := by decide
        simp only [collapseWS, hsp, if_true, Bool.false_eq_true, if_false]
        rw [IH.2.2]
      · constructor
        · show collapseWS false (collapseWS true (c :: rest)) = collapseWS true (c :: rest)
          simp only [collapseWS, hs, if_true]
          exact IH.2.1
        · show collapseWS true (collapseWS true (c :: rest)) = collapseWS true (c :: rest)
          simp only [collapseWS, hs, if_true]
          exact IH.2.2
    · rw [Bool.not_eq_true] at hs
      refine ⟨?_, ?_, ?_⟩ <;>
        · simp only [collapseWS, hs, Bool.false_eq_true, if_false]
          rw [IH.1]

/-- The first character is not whitespace. -/
def noLeadWS (l : List Char) : Prop := ∀ c, l.head? = some c → isPySpace c = false

/-- The last character is not whitespace. -/
def noTrailWS (l : List Char) : Prop := ∀ c, l.getLast? = some c → isPySpace c = false

theorem getLast?_cons_of_ne_nil {α : Type} (x : α) {L : List α} (h : L ≠ []) :
    (x :: L).getLast? = L.getLast? := by
  cases L with
  | nil => exact absurd rfl h
  | cons y t => exact List.getLast?_cons_cons

theorem dropWhile_eq_self_of_noLead (l : List Char) (h : noLeadWS l) :
    l.dropWhile isPySpace = l := by
  cases l with
  | nil => rfl
  | cons a rest =>
    have ha : isPySpace a = false := h a rfl
    simp [List.dropWhile_cons, ha]

theorem pyStrip_eq_self (l : List Char) (h1 : noLeadWS l) (h2 : noTrailWS l) :
    pyStrip l = l := by
  unfold pyStrip
  rw [dropWhile_eq_self_of_noLead l h1]
  have hrev : noLeadWS l.reverse := by
    intro c hc
    rw [List.head?_reverse] at hc
    exact h2 c hc
  rw [dropWhile_eq_self_of_noLead _ hrev, List.reverse_reverse]

theorem noLeadWS_pyStrip (l : List Char) : noLeadWS (pyStrip l) := by
  intro c hc
  have hpre : pyStrip l <+: l.dropWhile isPySpace := by
    unfold pyStrip
    have hsuf : ((l.dropWhile isPySpace).reverse.dropWhile isPySpace)
        <:+ (l.dropWhile isPySpace).reverse := List.dropWhile_suffix _
    have h2 := hsuf.reverse
    rwa [List.reverse_reverse] at h2
  have hne : pyStrip l ≠ [] := by
    intro hnil
    rw [hnil] at hc
    exact Option.noConfusion hc
  have hhead := hpre.head hne
  rw [List.head?_eq_head hne] at hc
  have hc' : c = (pyStrip l).head hne := (Option.some.inj hc).symm
  rw [hc', hhead]
  exact List.head_dropWhile_not isPySpace l _

theorem noTrailWS_pyStrip (l : List Char) : noTrailWS (pyStrip l) := by
  intro c hc
  unfold pyStrip at hc
  rw [List.getLast?_reverse] at hc
  have := List.head?_dropWhile_not isPySpace (l.dropWhile isPySpace).reverse
  rw [hc] at this
  exact this

theorem noLeadWS_map_toLower (l : List Char) (h : noLeadWS l) :
    noLeadWS (l.map Char.toLower) := by
  intro c hc
  rw [List.head?_map] at hc
  cases hh : l.head? with
  | none => rw [hh] at hc; exact Option.noConfusion hc
  | some d =>
    rw [hh] at hc
    have : Char.toLower d = c := Option.some.inj hc
    rw [← this, isPySpace_toLower]
    exact h d hh

theorem noTrailWS_map_toLower (l : List Char) (h : noTrailWS l) :
    noTrailWS (l.map Char.toLower) := by
  intro c hc
  rw [List.getLast?_map] at hc
  cases hh : l.getLast? with
  | none => rw [hh] at hc; exact Option.noConfusion hc
  | some d =>
    rw [hh] at hc
    have : Char.toLower d = c := Option.some.inj hc
    rw [← this, isPySpace_toLower]
    exact h d hh

theorem collapseWS_noLead (l : List Char) (h : noLeadWS l) :
    noLeadWS (collapseWS false l) := by
  intro c hc
  cases l with
  | nil => exact Option.noConfusion hc
  | cons a rest =>
    have ha : isPySpace a = false := h a rfl
    simp only [collapseWS, ha, Bool.false_eq_true, if_false] at hc
    have : a = c := Option.some.inj hc
    rw [← this]
    exact ha

theorem collapseWS_ne_nil (l : List Char) :
    ∀ (b : Bool), (∃ c ∈ l, isPySpace c = false) → collapseWS b l ≠ [] := by
  induction l with
  | nil => intro b h; rcases h with ⟨c, hc, _⟩; exact absurd hc (List.not_mem_nil c)
  | cons a rest ih =>
    intro b h
    by_cases hs : isPySpace a = true
    · have hrest : ∃ c ∈ rest, isPySpace c = false := by
        rcases h with ⟨c, hc, hcf⟩
        rcases List.mem_cons.mp hc with rfl | hmem
        · rw [hs] at hcf; exact absurd hcf (by simp)
        · exact ⟨c, hmem, hcf⟩
      simp only [collapseWS, hs, if_pos rfl]
      cases b with
      | true => exact ih true hrest
      | false => simp
    · rw [Bool.not_eq_true] at hs
      simp only [collapseWS, hs, Bool.false_eq_true, if_false]
      simp

theorem collapseWS_noTrail (l : List Char) (h : noTrailWS l) :
    ∀ (b : Bool), noTrailWS (collapseWS b l) := by
  induction l with
  | nil => intro b c hc; exact Option.noConfusion hc
  | cons a rest ih =>
    intro b c hc
    by_cases hne : rest = []
    · subst hne
      have ha : isPySpace a = false := h a (by simp)
      rw [collapseWS_cons_nonspace b ha] at hc
      simp only [collapseWS] at hc
      rw [List.getLast?_singleton] at hc
      rw [← Option.some.inj hc]
      exact ha
    · have hrestTrail : noTrailWS rest := by
        intro d hd
        apply h d
        rw [getLast?_cons_of_ne_nil a hne]
        exact hd
      have ihr := ih hrestTrail
      by_cases hs : isPySpace a = true
      · cases b with
        | true =>
          rw [collapseWS_cons_space_true hs] at hc
          exact ihr true c hc
        | false =>
          rw [collapseWS_cons_space_false hs] at hc
          have hnn : collapseWS true rest ≠ [] := by
            apply collapseWS_ne_nil
            have hlast : ∃ d, rest.getLast? = some d := by
              cases hd : rest.getLast? with
              | none => exact absurd (List.getLast?_eq_none_iff.mp hd) hne
              | some d => exact ⟨d, rfl⟩
            rcases hlast with ⟨d, hd⟩
            exact ⟨d, List.mem_of_mem_getLast? (Option.mem_def.mpr hd), hrestTrail d hd⟩
          rw [getLast?_cons_of_ne_nil ' ' hnn] at hc
          exact ihr true c hc
      · rw [Bool.not_eq_true] at hs
        rw [collapseWS_cons_nonspace b hs] at hc
        by_cases hnn : collapseWS false rest = []
        · rw [hnn, List.getLast?_singleton] at hc
          rw [← Option.some.inj hc]
          exact hs
        · rw [getLast?_cons_of_ne_nil a hnn] at hc
          exact ihr false c hc

theorem map_toLower_eq_self_of_collapsed (m : List Char) :
    (collapseWS false (m.map Char.toLower)).map Char.toLower
      = collapseWS false (m.map Char.toLower) := by
  have h : ∀ c ∈ collapseWS false (m.map Char.toLower), Char.toLower c = c := by
    intro c hc
    rcases mem_collapseWS _ false c hc with rfl | hc'
    · exact toLower_space
    · rcases List.mem_map.mp hc' with ⟨d, _, rfl⟩
      exact toLower_toLower d
  calc (collapseWS false (m.map Char.toLower)).map Char.toLower
      = (collapseWS false (m.map Char.toLower)).map id := List.map_congr_left h
    _ = collapseWS false (m.map Char.toLower) := List.map_id _

/-- C9: the key-normalization function lower-cases its input, trims leading and
trailing whitespace, and collapses every internal run of whitespace to a single
space (stated as: it agrees with the spec's lower-then-trim-then-collapse
description on every string); in particular `normalize_key "  Login   Feature "`
and `normalize_key "login feature"` both equal `"login feature"`. -/
theorem c9_normalize_key_algorithm :
    (∀ t, normalize_key t = normalizeKeySpec t) ∧
    normalize_key "  Login   Feature " = "login feature" ∧
    normalize_key "login feature" = "login feature" := by
  refine ⟨?_, by decide, by decide⟩
  intro t
  by_cases h : t = ""
  · subst h; decide
  · unfold normalize_key normalizeKeySpec
    rw [if_neg h, pyStrip_map_toLower]

/-- The normalized character list is a fixed point of the whole
strip-lower-collapse pipeline. -/
theorem normalized_fixed_point (l : List Char) :
    collapseWS false ((pyStrip (collapseWS false ((pyStrip l).map Char.toLower))).map Char.toLower)
      = collapseWS false ((pyStrip l).map Char.toLower) := by
  have hmLead : noLeadWS ((pyStrip l).map Char.toLower) :=
    noLeadWS_map_toLower _ (noLeadWS_pyStrip l)
  have hmTrail : noTrailWS ((pyStrip l).map Char.toLower) :=
    noTrailWS_map_toLower _ (noTrailWS_pyStrip l)
  have hresLead := collapseWS_noLead _ hmLead
  have hresTrail := collapseWS_noTrail _ hmTrail false
  rw [pyStrip_eq_self _ hresLead hresTrail,
    map_toLower_eq_self_of_collapsed (pyStrip l),
    (collapseWS_collapseWS ((pyStrip l).map Char.toLower)).1]

/-- C10: `normalize_key` is idempotent and total on strings (including `""`,
where it returns `""`): re-normalizing a stored key yields the key itself. -/
theorem c10_normalize_key_idempotent :
    normalize_key "" = "" ∧ ∀ t, normalize_key (normalize_key t) = normalize_key t := by
  refine ⟨rfl, ?_⟩
  intro t
  by_cases h : t = ""
  · subst h; decide
  · have h1 : normalize_key t = ⟨collapseWS false ((pyStrip t.data).map Char.toLower)⟩ := by
      unfold normalize_key
      rw [if_neg h]
    rw [h1]
    by_cases hres : (⟨collapseWS false ((pyStrip t.data).map Char.toLower)⟩ : String) = ""
    · rw [hres]; decide
    · unfold normalize_key
      rw [if_neg hres]
      apply congrArg String.mk
      exact normalized_fixed_point t.data

/-! ## Data model (`app/models.py`)

`User`, `Project`, `Requirement`, `RequirementVersion` rows.  Association
tables and SQLAlchemy relationships become id references and explicit lists;
a requirement's `versions` list is kept in `version_index` order, exactly as
the `order_by="RequirementVersion.version_index.asc()"` relationship delivers
it. -/

/-- A user row: only the id and email matter for the verified operations. -/
structure User where
  id : Nat
  email : String
deriving DecidableEq, Repr

/-- A project row: `owner` is `user_id`, `shared` the `shared_with` list. -/
structure Project where
  owner : Nat
  shared : List Nat
deriving DecidableEq, Repr

/-- `Project.is_accessible_by`: owner or member of the shared set. -/
def is_accessible_by (p : Project) (uid : Nat) : Bool :=
  p.owner == uid || p.shared.contains uid

/-- `models.version_label`: letter-based label, `1 → "A"`, `2 → "B"`, …;
non-positive indices give `""`. -/
def version_label (n : Nat) : String :=
  if n = 0 then "" else String.singleton (Char.ofNat (65 + (n - 1)))

/-- The nth letter of the alphabet as used by the spec (`1 → "A"`). -/
def nthLetter (n : Nat) : String :=
  String.singleton (Char.ofNat (64 + n))

/-- A `RequirementVersion` row. -/
structure RequirementVersion where
  version_index : Nat
  version_label : String
  title : String
  description : String
  category : Option String
  status : String
  custom_data : List (String × String)
  created_by : Nat
  last_modified_by : Option Nat
  is_blocked : Bool
  blocked_by : Option Nat
  blocked_at : Option Nat
deriving DecidableEq, Repr

/-- A `Requirement` row together with its ordered `versions` relationship. -/
structure Requirement where
  id : Nat
  project_id : Nat
  key : String
  is_deleted : Bool
  versions : List RequirementVersion
deriving DecidableEq, Repr

/-- The editable field set supplied by a caller when a version is created. -/
structure VersionFields where
  title : String
  description : String
  category : Option String
  status : String
  custom_data : List (String × String)
deriving DecidableEq, Repr

/-- Build a fresh, unblocked `RequirementVersion` row. -/
def mkVersion (idx : Nat) (label : String) (f : VersionFields) (actor : Nat) :
    RequirementVersion :=
  { version_index := idx, version_label := label, title := f.title,
    description := f.description, category := f.category, status := f.status,
    custom_data := f.custom_data, created_by := actor, last_modified_by := none,
    is_blocked := false, blocked_by := none, blocked_at := none }

/-! ## Version sequencing (`agent.next_version_info` and the write paths) -/

/-- `agent.next_version_info`: 1/`A` for an empty requirement, else the last
version's index plus one with the corresponding label. -/
def next_version_info (req : Requirement) : Nat × String :=
  match req.versions.getLast? with
  | none => (1, version_label 1)
  | some last => (last.version_index + 1, version_label (last.version_index + 1))

/-- The AI-generation path's "new logical requirement" branch
(`agent.generate`): a fresh requirement with version 1, label `version_label 1`. -/
def createRequirement (rid pid : Nat) (key : String) (f : VersionFields) (actor : Nat) :
    Requirement :=
  { id := rid, project_id := pid, key := key, is_deleted := false,
    versions := [mkVersion 1 (version_label 1) f actor] }

/-- The AI-generation path's "new version of an existing requirement" branch
(`agent.generate`): append a version computed by `next_version_info`. -/
def appendVersion (req : Requirement) (f : VersionFields) (actor : Nat) : Requirement :=
  { req with versions :=
      req.versions ++ [mkVersion (next_version_info req).1 (next_version_info req).2 f actor] }

/-- The Excel-import path's "create requirement" branch (`routes.import_excel`):
`version_index = 1`, `version_label = 'A'` literally. -/
def importCreateRequirement (rid pid : Nat) (key : String) (f : VersionFields)
    (actor : Nat) : Requirement :=
  { id := rid, project_id := pid, key := key, is_deleted := false,
    versions := [mkVersion 1 "A" f actor] }

/-- The Excel-import path's "new version" branch (`routes.import_excel`):
`last_version.version_index + 1` (or 1 if there is none) and a label computed by
`chr(ord('A') + (version_index - 1))`. -/
def importAppendVersion (req : Requirement) (f : VersionFields) (actor : Nat) :
    Requirement :=
  let idx := match req.versions.getLast? with
    | none => 1
    | some last => last.version_index + 1
  { req with versions :=
      req.versions ++ [mkVersion idx (String.singleton (Char.ofNat (65 + (idx - 1)))) f actor] }

/-- `routes.delete_requirement_version`: if the requirement has exactly one
remaining version, soft-delete the requirement and keep the version row;
otherwise physically delete the addressed version (position `i` in the ordered
`versions` list). -/
def delete_requirement_version (req : Requirement) (i : Nat) : Requirement :=
  if req.versions.length == 1 then { req with is_deleted := true }
  else { req with versions := req.versions.eraseIdx i }

/-! ## C1: the version-sequence invariant -/

/-- The `version_index` column of the ordered `versions` relationship. -/
def versionIndices (r : Requirement) : List Nat := r.versions.map (·.version_index)

/-- "versions sorted by version_index form a gapless sequence starting at 1". -/
def gaplessFromOne (r : Requirement) : Prop :=
  versionIndices r = List.range' 1 r.versions.length

instance (r : Requirement) : Decidable (gaplessFromOne r) :=
  inferInstanceAs (Decidable (versionIndices r = List.range' 1 r.versions.length))

/-- "each stored version_label equals the nth letter of the alphabet for
`1 ≤ version_index ≤ 26`". -/
def labelsMatch (r : Requirement) : Prop :=
  ∀ v ∈ r.versions, 1 ≤ v.version_index → v.version_index ≤ 26 →
    v.version_label = nthLetter v.version_index

instance (r : Requirement) : Decidable (labelsMatch r) :=
  inferInstanceAs (Decidable (∀ v ∈ r.versions, 1 ≤ v.version_index →
    v.version_index ≤ 26 → v.version_label = nthLetter v.version_index))

/-- Every stored version index is positive (`version_index` starts at 1). -/
def allIndicesPositive (r : Requirement) : Prop :=
  ∀ v ∈ r.versions, 1 ≤ v.version_index

instance (r : Requirement) : Decidable (allIndicesPositive r) :=
  inferInstanceAs (Decidable (∀ v ∈ r.versions, 1 ≤ v.version_index))

/-- Requirement states reachable through the public write operations: creation
(AI generation or Excel import), version append (AI generation or Excel
import), and single-version deletion. -/
inductive Reach : Requirement → Prop where
  | create (rid pid : Nat) (key : String) (f : VersionFields) (actor : Nat) :
      Reach (createRequirement rid pid key f actor)
  | importCreate (rid pid : Nat) (key : String) (f : VersionFields) (actor : Nat) :
      Reach (importCreateRequirement rid pid key f actor)
  | append (r : Requirement) (f : VersionFields) (actor : Nat) :
      Reach r → Reach (appendVersion r f actor)
  | importAppend (r : Requirement) (f : VersionFields) (actor : Nat) :
      Reach r → Reach (importAppendVersion r f actor)
  | deleteVersion (r : Requirement) (i : Nat) :
      i < r.versions.length → Reach r → Reach (delete_requirement_version r i)

/-- Requirement states reachable through the creation/append paths only
(no version deletion). -/
inductive BuildReach : Requirement → Prop where
  | create (rid pid : Nat) (key : String) (f : VersionFields) (actor : Nat) :
      BuildReach (createRequirement rid pid key f actor)
  | importCreate (rid pid : Nat) (key : String) (f : VersionFields) (actor : Nat) :
      BuildReach (importCreateRequirement rid pid key f actor)
  | append (r : Requirement) (f : VersionFields) (actor : Nat) :
      BuildReach r → BuildReach (appendVersion r f actor)
  | importAppend (r : Requirement) (f : VersionFields) (actor : Nat) :
      BuildReach r → BuildReach (importAppendVersion r f actor)

theorem buildReach_reach {r : Requirement} (h : BuildReach r) : Reach r := by
  induction h with
  | create rid pid key f actor => exact Reach.create rid pid key f actor
  | importCreate rid pid key f actor => exact Reach.importCreate rid pid key f actor
  | append r f actor _ ih => exact Reach.append r f actor ih
  | importAppend r f actor _ ih => exact Reach.importAppend r f actor ih

theorem version_label_eq_nthLetter {n : Nat} (h : 1 ≤ n) :
    version_label n = nthLetter n := by
  unfold version_label nthLetter
  rw [if_neg (by omega)]
  have : 65 + (n - 1) = 64 + n := by omega
  rw [this]

theorem pairwise_lt_all_le_getLast {L : List Nat} :
    ∀ {m : Nat}, List.Pairwise (· < ·) L → L.getLast? = some m → ∀ a ∈ L, a ≤ m := by
  induction L with
  | nil => intro m _ hl; exact Option.noConfusion hl
  | cons x t ih =>
    intro m hp hl a ha
    by_cases ht : t = []
    · subst ht
      have hx : x = m := Option.some.inj hl
      rcases List.mem_singleton.mp ha with rfl
      omega
    · rw [getLast?_cons_of_ne_nil x ht] at hl
      have hm : m ∈ t := List.mem_of_mem_getLast? (Option.mem_def.mpr hl)
      rcases List.mem_cons.mp ha with rfl | hat
      · have := (List.pairwise_cons.mp hp).1 m hm
        omega
      · exact ih (List.pairwise_cons.mp hp).2 hl a hat

theorem versionIndices_append (r : Requirement) (f : VersionFields) (actor : Nat) :
    versionIndices (appendVersion r f actor)
      = versionIndices r ++ [(next_version_info r).1] := by
  simp [versionIndices, appendVersion, mkVersion]

theorem versionIndices_importAppend (r : Requirement) (f : VersionFields) (actor : Nat) :
    versionIndices (importAppendVersion r f actor)
      = versionIndices r ++ [(next_version_info r).1] := by
  unfold versionIndices importAppendVersion next_version_info
  cases r.versions.getLast? <;> simp [mkVersion]

theorem getLast?_versionIndices (r : Requirement) :
    (versionIndices r).getLast? = r.versions.getLast?.map (·.version_index) := by
  unfold versionIndices
  rw [List.getLast?_map]

/-- When the version list is non-empty, the Excel-import append is the same
operation as the AI-generation append (the labels agree). -/
theorem importAppend_eq_append_of_ne_nil {r : Requirement} {f : VersionFields}
    {actor : Nat} (h : r.versions ≠ []) :
    importAppendVersion r f actor = appendVersion r f actor := by
  unfold importAppendVersion appendVersion next_version_info
  cases hl : r.versions.getLast? with
  | none => exact absurd (List.getLast?_eq_none_iff.mp hl) h
  | some last =>
    simp only
    have hlab : String.singleton (Char.ofNat (65 + (last.version_index + 1 - 1)))
        = version_label (last.version_index + 1) := by
      unfold version_label
      rw [if_neg (by omega)]
    rw [hlab]

theorem append_preserves_invariant {r : Requirement} {f : VersionFields} {actor : Nat}
    (ih : List.Pairwise (· < ·) (versionIndices r) ∧
      (∀ v ∈ r.versions, 1 ≤ v.version_index) ∧ labelsMatch r ∧ r.versions ≠ []) :
    List.Pairwise (· < ·) (versionIndices (appendVersion r f actor)) ∧
    (∀ v ∈ (appendVersion r f actor).versions, 1 ≤ v.version_index) ∧
    labelsMatch (appendVersion r f actor) ∧ (appendVersion r f actor).versions ≠ [] := by
  obtain ⟨hpw, hpos, hlab, hne⟩ := ih
  cases hl : r.versions.getLast? with
  | none => exact absurd (List.getLast?_eq_none_iff.mp hl) hne
  | some last =>
    have hidx : (next_version_info r).1 = last.version_index + 1 := by
      unfold next_version_info
      rw [hl]

    have hlabnew : (next_version_info r).2 = version_label (last.version_index + 1) := by
      unfold next_version_info
      rw [hl]
    refine ⟨?_, ?_, ?_, by simp [appendVersion]⟩
    · have hgl : (versionIndices r).getLast? = some last.version_index := by
        rw [getLast?_versionIndices, hl]
        rfl
      rw [versionIndices_append, hidx, List.pairwise_append]
      refine ⟨hpw, List.pairwise_singleton .., ?_⟩
      intro a ha b hb
      rcases List.mem_singleton.mp hb with rfl
      have hle := pairwise_lt_all_le_getLast hpw hgl a ha
      omega
    · intro v hv
      simp only [appendVersion, List.mem_append, List.mem_singleton] at hv
      rcases hv with hv | rfl
      · exact hpos v hv
      · simp [mkVersion, hidx]
    · intro v hv h1 h26
      simp only [appendVersion, List.mem_append, List.mem_singleton] at hv
      rcases hv with hv | rfl
      · exact hlab v hv h1 h26
      · simp only [mkVersion] at h1 h26 ⊢
        rw [hlabnew, hidx]
        exact version_label_eq_nthLetter (by omega)

theorem delete_preserves_invariant {r : Requirement} {i : Nat}
    (hi : i < r.versions.length)
    (ih : List.Pairwise (· < ·) (versionIndices r) ∧
      (∀ v ∈ r.versions, 1 ≤ v.version_index) ∧ labelsMatch r ∧ r.versions ≠ []) :
    List.Pairwise (· < ·) (versionIndices (delete_requirement_version r i)) ∧
    (∀ v ∈ (delete_requirement_version r i).versions, 1 ≤ v.version_index) ∧
    labelsMatch (delete_requirement_version r i) ∧
    (delete_requirement_version r i).versions ≠ [] := by
  obtain ⟨hpw, hpos, hlab, hne⟩ := ih
  unfold delete_requirement_version
  by_cases hlen : r.versions.length == 1
  · rw [if_pos hlen]
    exact ⟨hpw, hpos, hlab, hne⟩
  · rw [if_neg hlen]
    have hlen1 : r.versions.length ≠ 1 := by simpa using hlen
    have hlen2 : 2 ≤ r.versions.length := by omega
    refine ⟨?_, ?_, ?_, ?_⟩
    · have hpw' : r.versions.Pairwise
          (fun u v => u.version_index < v.version_index) := List.pairwise_map.mp hpw
      exact List.pairwise_map.mpr (hpw'.eraseIdx i)
    · intro v hv
      exact hpos v (List.mem_of_mem_eraseIdx hv)
    · intro v hv h1 h26
      exact hlab v (List.mem_of_mem_eraseIdx hv) h1 h26
    · have hle : (r.versions.eraseIdx i).length = r.versions.length - 1 := by
        rw [List.length_eraseIdx, if_pos hi]
      intro hnil
      have hnil' : r.versions.eraseIdx i = [] := hnil
      rw [hnil'] at hle
      simp only [List.length_nil] at hle
      omega

/-- The core invariant preserved by every reachable state: strictly ascending
positive indices, labels matching their index, and a never-empty version list. -/
theorem reach_invariant {r : Requirement} (h : Reach r) :
    List.Pairwise (· < ·) (versionIndices r) ∧
    (∀ v ∈ r.versions, 1 ≤ v.version_index) ∧ labelsMatch r ∧ r.versions ≠ [] := by
  induction h with
  | create rid pid key f actor =>
    refine ⟨by simp [versionIndices, createRequirement, mkVersion], ?_, ?_, by simp [createRequirement]⟩
    · intro v hv
      simp only [createRequirement, List.mem_singleton] at hv
      subst hv
      simp [mkVersion]
    · intro v hv h1 h26
      simp only [createRequirement, List.mem_singleton] at hv
      subst hv
      simp only [mkVersion]
      exact version_label_eq_nthLetter (le_refl 1)
  | importCreate rid pid key f actor =>
    refine ⟨by simp [versionIndices, importCreateRequirement, mkVersion], ?_, ?_, by simp [importCreateRequirement]⟩
    · intro v hv
      simp only [importCreateRequirement, List.mem_singleton] at hv
      subst hv
      simp [mkVersion]
    · intro v hv h1 h26
      simp only [importCreateRequirement, List.mem_singleton] at hv
      subst hv
      simp only [mkVersion]
      have : nthLetter 1 = "A" := by decide
      rw [this]
  | append r f actor _ ih => exact append_preserves_invariant ih
  | importAppend r f actor _ ih =>
    have h2 := @append_preserves_invariant r f actor ih
    have heq : importAppendVersion r f actor = appendVersion r f actor :=
      importAppend_eq_append_of_ne_nil ih.2.2.2
    rw [heq]
    exact h2
  | deleteVersion r i hi _ ih => exact delete_preserves_invariant hi ih

theorem range'_one_getLast {n : Nat} (h : 1 ≤ n) :
    (List.range' 1 n).getLast? = some n := by
  cases n with
  | zero => omega
  | succ m =>
    rw [List.range'_1_concat, List.getLast?_concat]
    rw [Nat.add_comm]

/-- Every state reachable without version deletion is gapless from 1. -/
theorem buildReach_gapless {r : Requirement} (h : BuildReach r) : gaplessFromOne r := by
  induction h with
  | create rid pid key f actor =>
    unfold gaplessFromOne
    simp [createRequirement, versionIndices, mkVersion]
  | importCreate rid pid key f actor =>
    unfold gaplessFromOne
    simp [importCreateRequirement, versionIndices, mkVersion]
  | append r f actor _ ih =>
    unfold gaplessFromOne at ih ⊢
    have hlen : (appendVersion r f actor).versions.length = r.versions.length + 1 := by
      simp [appendVersion]
    rw [versionIndices_append, hlen]
    cases hl : r.versions.getLast? with
    | none =>
      have hnil : r.versions = [] := List.getLast?_eq_none_iff.mp hl
      have hvi : versionIndices r = [] := by
        unfold versionIndices
        rw [hnil]
        rfl
      have hidx : (next_version_info r).1 = 1 := by
        unfold next_version_info
        rw [hl]
      rw [hvi, hidx, hnil]
      simp
    | some last =>
      have hne : r.versions ≠ [] := by
        intro hnil
        rw [hnil] at hl
        exact Option.noConfusion hl
      have hn1 : 1 ≤ r.versions.length :=
        Nat.succ_le_of_lt (List.length_pos.mpr hne)
      have hgl : (versionIndices r).getLast? = some last.version_index := by
        rw [getLast?_versionIndices, hl]
        rfl
      rw [ih, range'_one_getLast hn1] at hgl
      have hlast : last.version_index = r.versions.length := (Option.some.inj hgl).symm
      have hidx : (next_version_info r).1 = last.version_index + 1 := by
        unfold next_version_info
        rw [hl]
      rw [ih, hidx, hlast, List.range'_1_concat, Nat.add_comm 1 r.versions.length]
  | importAppend r f actor _ ih =>
    unfold gaplessFromOne at ih ⊢
    have hlen : (importAppendVersion r f actor).versions.length = r.versions.length + 1 := by
      simp [importAppendVersion]
    rw [versionIndices_importAppend, hlen]
    cases hl : r.versions.getLast? with
    | none =>
      have hnil : r.versions = [] := List.getLast?_eq_none_iff.mp hl
      have hvi : versionIndices r = [] := by
        unfold versionIndices
        rw [hnil]
        rfl
      have hidx : (next_version_info r).1 = 1 := by
        unfold next_version_info
        rw [hl]
      rw [hvi, hidx, hnil]
      simp
    | some last =>
      have hne : r.versions ≠ [] := by
        intro hnil
        rw [hnil] at hl
        exact Option.noConfusion hl
      have hn1 : 1 ≤ r.versions.length :=
        Nat.succ_le_of_lt (List.length_pos.mpr hne)
      have hgl : (versionIndices r).getLast? = some last.version_index := by
        rw [getLast?_versionIndices, hl]
        rfl
      rw [ih, range'_one_getLast hn1] at hgl
      have hlast : last.version_index = r.versions.length := (Option.some.inj hgl).symm
      have hidx : (next_version_info r).1 = last.version_index + 1 := by
        unfold next_version_info
        rw [hl]
      rw [ih, hidx, hlast, List.range'_1_concat, Nat.add_comm 1 r.versions.length]

/-- A concrete field set used in the C1 scenarios. -/
def sampleFields : VersionFields :=
  { title := "t", description := "d", category := none, status := "Offen", custom_data := [] }

/-- Create a requirement, append a second version, then delete the first
version: the surviving version has index 2, so the sequence has a gap. -/
def reqGap : Requirement :=
  delete_requirement_version
    (appendVersion (createRequirement 1 1 "t" sampleFields 1) sampleFields 1) 0

/-- C1 is false as stated: `reqGap` is reachable by the public operations
(create, append, delete a version) but its versions are `[2]`, which is not a
gapless sequence starting at 1. -/
theorem c1_counterexample : Reach reqGap ∧ ¬ gaplessFromOne reqGap := by
  constructor
  · show Reach (delete_requirement_version
      (appendVersion (createRequirement 1 1 "t" sampleFields 1) sampleFields 1) 0)
    exact Reach.deleteVersion _ 0 (by decide)
      (Reach.append _ _ _ (Reach.create 1 1 "t" sampleFields 1))
  · decide

/-- C1 (amended): every reachable requirement has strictly ascending,
positive version indices, a non-empty version list, and every stored
version_label equals the nth letter of the alphabet for
`1 ≤ version_index ≤ 26`; states reachable without version deletion are
moreover gapless starting at 1.  (Deleting a non-last version removes its
index and can leave a gap.) -/
theorem c1_version_sequence_amended :
    (∀ r, Reach r →
      List.Pairwise (· < ·) (versionIndices r) ∧ allIndicesPositive r ∧
      labelsMatch r ∧ r.versions ≠ []) ∧
    (∀ r, BuildReach r → gaplessFromOne r ∧ labelsMatch r) := by
  constructor
  · intro r h
    exact reach_invariant h
  · intro r h
    exact ⟨buildReach_gapless h, (reach_invariant (buildReach_reach h)).2.2.1⟩

/-- A two-version requirement built without any deletion. -/
def reqBuilt : Requirement :=
  appendVersion (createRequirement 1 1 "t" sampleFields 1) sampleFields 1

theorem c1_version_sequence_amended_witness :
    (List.Pairwise (· < ·) (versionIndices reqGap) ∧ allIndicesPositive reqGap ∧
      labelsMatch reqGap ∧ reqGap.versions ≠ []) ∧
    (gaplessFromOne reqBuilt ∧ labelsMatch reqBuilt) := by
  constructor
  · apply c1_version_sequence_amended.1 reqGap
    show Reach (delete_requirement_version
      (appendVersion (createRequirement 1 1 "t" sampleFields 1) sampleFields 1) 0)
    exact Reach.deleteVersion _ 0 (by decide)
      (Reach.append _ _ _ (Reach.create 1 1 "t" sampleFields 1))
  · apply c1_version_sequence_amended.2 reqBuilt
    show BuildReach (appendVersion (createRequirement 1 1 "t" sampleFields 1) sampleFields 1)
    exact BuildReach.append _ _ _ (BuildReach.create 1 1 "t" sampleFields 1)

/-! ## C2: candidate resolution during AI generation (`agent.generate`)

The per-item reconciliation loop of `agent.generate`, lines 294–324: try the
numeric `id` hint first (`Requirement.query.get`, then a project check),
otherwise look up the normalized key within the project, otherwise create.
`reqs` is the full requirement table in query order; `cid` is the already
parsed numeric id hint (`none` for absent, falsy or unparseable values, which
all skip the id branch in the source). -/

/-- `Requirement.query.get(r_id)`: global primary-key lookup. -/
def findRequirementById (reqs : List Requirement) (i : Nat) : Option Requirement :=
  reqs.find? (fun r => r.id == i)

/-- `Requirement.query.filter_by(project_id=..., key=...).first()`. -/
def findRequirementByKey (reqs : List Requirement) (pid : Nat) (key : String) :
    Option Requirement :=
  reqs.find? (fun r => r.project_id == pid && r.key == key)

/-- The id branch: a hinted requirement is used only if it exists and belongs
to the target project (the "security check"). -/
def resolveById (reqs : List Requirement) (pid : Nat) (cid : Option Nat) :
    Option Requirement :=
  match cid with
  | none => none
  | some i =>
    match findRequirementById reqs i with
    | none => none
    | some r => if r.project_id == pid then some r else none

/-- Which requirement a candidate resolves to. -/
inductive Resolution where
  | existing (r : Requirement)
  | createNew (key : String)
deriving DecidableEq, Repr

/-- The resolution precedence of `agent.generate`: id hint, then normalized
key within the project, then create new with the normalized key. -/
def resolveOrCreate (reqs : List Requirement) (pid : Nat) (cid : Option Nat)
    (title : String) : Resolution :=
  match resolveById reqs pid cid with
  | some r => .existing r
  | none =>
    match findRequirementByKey reqs pid (normalize_key title) with
    | some r => .existing r
    | none => .createNew (normalize_key title)

/-- One full reconciliation step of the generation loop: resolve, then either
append a version to the resolved requirement or add a fresh requirement
carrying the normalized key. -/
def generateStep (reqs : List Requirement) (pid freshId : Nat) (cid : Option Nat)
    (title : String) (f : VersionFields) (actor : Nat) : List Requirement :=
  match resolveOrCreate reqs pid cid title with
  | .existing r => reqs.map (fun r2 => if r2.id == r.id then appendVersion r2 f actor else r2)
  | .createNew key => reqs ++ [createRequirement freshId pid key f actor]

/-- C2: resolution precedence.  (a) A supplied numeric id that resolves to a
requirement of the target project wins; (b) otherwise a requirement of the
project whose key equals the normalized candidate title is reused — a version
is appended and no new requirement row is created; (c) otherwise a new
requirement with the normalized key is created. -/
theorem c2_resolution_precedence
    (reqs : List Requirement) (pid freshId : Nat) (cid : Option Nat)
    (title : String) (f : VersionFields) (actor : Nat) :
    (∀ i r, cid = some i → findRequirementById reqs i = some r → r.project_id = pid →
      resolveOrCreate reqs pid cid title = .existing r) ∧
    (∀ r, resolveById reqs pid cid = none →
      findRequirementByKey reqs pid (normalize_key title) = some r →
      resolveOrCreate reqs pid cid title = .existing r ∧
      (generateStep reqs pid freshId cid title f actor).length = reqs.length ∧
      generateStep reqs pid freshId cid title f actor =
        reqs.map (fun r2 => if r2.id == r.id then appendVersion r2 f actor else r2)) ∧
    (resolveById reqs pid cid = none →
      findRequirementByKey reqs pid (normalize_key title) = none →
      resolveOrCreate reqs pid cid title = .createNew (normalize_key title) ∧
      generateStep reqs pid freshId cid title f actor =
        reqs ++ [createRequirement freshId pid (normalize_key title) f actor]) := by
  refine ⟨?_, ?_, ?_⟩
  · intro i r hcid hfind hproj
    subst hcid
    unfold resolveOrCreate resolveById
    simp [hfind, hproj]
  · intro r hres hkey
    have h1 : resolveOrCreate reqs pid cid title = .existing r := by
      unfold resolveOrCreate
      rw [hres, hkey]
    refine ⟨h1, ?_, ?_⟩
    · unfold generateStep
      rw [h1]
      simp
    · unfold generateStep
      rw [h1]
  · intro hres hkey
    have h1 : resolveOrCreate reqs pid cid title = .createNew (normalize_key title) := by
      unfold resolveOrCreate
      rw [hres, hkey]
    refine ⟨h1, ?_⟩
    unfold generateStep
    rw [h1]

theorem c2_resolution_precedence_witness :
    (resolveOrCreate [createRequirement 5 1 "login feature" sampleFields 1] 1 (some 5) "x"
      = .existing (createRequirement 5 1 "login feature" sampleFields 1)) ∧
    (resolveOrCreate [createRequirement 5 1 "login feature" sampleFields 1] 1 none
        "  Login   Feature "
      = .existing (createRequirement 5 1 "login feature" sampleFields 1) ∧
      (generateStep [createRequirement 5 1 "login feature" sampleFields 1] 1 9 none
        "  Login   Feature " sampleFields 1).length = 1 ∧
      generateStep [createRequirement 5 1 "login feature" sampleFields 1] 1 9 none
          "  Login   Feature " sampleFields 1 =
        [createRequirement 5 1 "login feature" sampleFields 1].map
          (fun r2 => if r2.id == 5 then appendVersion r2 sampleFields 1 else r2)) ∧
    (resolveOrCreate [createRequirement 5 1 "login feature" sampleFields 1] 1 none "Other"
        = .createNew (normalize_key "Other") ∧
      generateStep [createRequirement 5 1 "login feature" sampleFields 1] 1 9 none
          "Other" sampleFields 1 =
        [createRequirement 5 1 "login feature" sampleFields 1]
          ++ [createRequirement 9 1 (normalize_key "Other") sampleFields 1]) := by
  refine ⟨?_, ?_, ?_⟩
  · exact (c2_resolution_precedence [createRequirement 5 1 "login feature" sampleFields 1]
      1 9 (some 5) "x" sampleFields 1).1 5
      (createRequirement 5 1 "login feature" sampleFields 1) rfl (by decide) rfl
  · exact (c2_resolution_precedence [createRequirement 5 1 "login feature" sampleFields 1]
      1 9 none "  Login   Feature " sampleFields 1).2.1
      (createRequirement 5 1 "login feature" sampleFields 1) rfl (by decide)
  · exact (c2_resolution_precedence [createRequirement 5 1 "login feature" sampleFields 1]
      1 9 none "Other" sampleFields 1).2.2 rfl (by decide)

/-! ## C3: semantics of deleting a single version
(`routes.delete_requirement_version`) -/

/-- Positions with distinct indices hold distinct version rows. -/
theorem versions_get_ne_of_pairwise {req : Requirement}
    (hpw : List.Pairwise (· < ·) (versionIndices req))
    {i j : Nat} (hi : i < req.versions.length) (hj : j < req.versions.length)
    (hne : j ≠ i) : req.versions.get ⟨j, hj⟩ ≠ req.versions.get ⟨i, hi⟩ := by
  have hpw' : req.versions.Pairwise
      (fun u v => u.version_index < v.version_index) := List.pairwise_map.mp hpw
  rw [List.pairwise_iff_getElem] at hpw'
  intro heq
  have heq' : req.versions[j] = req.versions[i] := heq
  rcases Nat.lt_or_ge j i with hlt | hge
  · have := hpw' j i hj hi hlt
    rw [heq'] at this
    omega
  · have hlt : i < j := by omega
    have := hpw' i j hi hj hlt
    rw [heq'] at this
    omega

/-- C3: deleting the sole version of a requirement soft-deletes the
requirement and keeps the version row; deleting one of several versions
removes exactly the addressed version, keeps every other version, and leaves
the requirement's deleted flag unchanged. -/
theorem c3_delete_version (req : Requirement) (i : Nat) (hi : i < req.versions.length)
    (hpw : List.Pairwise (· < ·) (versionIndices req)) :
    (req.versions.length = 1 →
      (delete_requirement_version req i).is_deleted = true ∧
      (delete_requirement_version req i).versions = req.versions) ∧
    (1 < req.versions.length →
      (delete_requirement_version req i).is_deleted = req.is_deleted ∧
      (delete_requirement_version req i).versions.length = req.versions.length - 1 ∧
      req.versions.get ⟨i, hi⟩ ∉ (delete_requirement_version req i).versions ∧
      ∀ j, ∀ hj : j < req.versions.length, j ≠ i →
        req.versions.get ⟨j, hj⟩ ∈ (delete_requirement_version req i).versions) := by
  constructor
  · intro hlen
    unfold delete_requirement_version
    rw [if_pos (by simpa using hlen)]
    exact ⟨by trivial, by trivial⟩
  · intro hlen
    have hbeq : (req.versions.length == 1) = false := by
      simp
      omega
    unfold delete_requirement_version
    rw [hbeq]
    simp only [Bool.false_eq_true, if_false]
    refine ⟨by trivial, ?_, ?_, ?_⟩
    · show (req.versions.eraseIdx i).length = req.versions.length - 1
      rw [List.length_eraseIdx, if_pos hi]
    · show req.versions.get ⟨i, hi⟩ ∉ req.versions.eraseIdx i
      intro hmem
      rw [List.mem_eraseIdx_iff_getElem] at hmem
      rcases hmem with ⟨j, hj, hjne, hjeq⟩
      exact versions_get_ne_of_pairwise hpw hi hj hjne hjeq
    · intro j hj hjne
      show req.versions.get ⟨j, hj⟩ ∈ req.versions.eraseIdx i
      rw [List.mem_eraseIdx_iff_getElem]
      exact ⟨j, hj, hjne, rfl⟩

/-- A one-version requirement used in the C3 witness. -/
def reqOne : Requirement := createRequirement 1 1 "t" sampleFields 1

theorem c3_delete_version_witness :
    (reqOne.versions.length = 1 ∧
      (delete_requirement_version reqOne 0).is_deleted = true ∧
      (delete_requirement_version reqOne 0).versions = reqOne.versions) ∧
    (1 < reqBuilt.versions.length ∧
      (delete_requirement_version reqBuilt 0).is_deleted = reqBuilt.is_deleted ∧
      (delete_requirement_version reqBuilt 0).versions.length
        = reqBuilt.versions.length - 1 ∧
      reqBuilt.versions.get ⟨0, by decide⟩ ∉ (delete_requirement_version reqBuilt 0).versions ∧
      reqBuilt.versions.get ⟨1, by decide⟩ ∈ (delete_requirement_version reqBuilt 0).versions) := by
  constructor
  · exact ⟨by decide,
      (c3_delete_version reqOne 0 (by decide) (by decide)).1 (by decide)⟩
  · refine ⟨by decide, ?_⟩
    have h := (c3_delete_version reqBuilt 0 (by decide) (by decide)).2 (by decide)
    exact ⟨h.1, h.2.1, h.2.2.1, h.2.2.2 1 (by decide) (by decide)⟩

/-! ## C4 and C5: the blocking arbiter
(`models.RequirementVersion.can_be_blocked_by`,
`models.RequirementVersion.can_be_edited_by`, `routes.toggle_block_requirement`) -/

/-- `RequirementVersion.can_be_edited_by`: everyone while unblocked, only the
blocker or the project owner while blocked. -/
def can_be_edited_by (v : RequirementVersion) (p : Project) (uid : Nat) : Bool :=
  if !v.is_blocked then true
  else v.blocked_by == some uid || p.owner == uid

/-- `RequirementVersion.can_be_blocked_by`: the owner always; any user with
project access while unblocked; only the blocker while blocked. -/
def can_be_blocked_by (v : RequirementVersion) (p : Project) (uid : Nat) : Bool :=
  if p.owner == uid then true
  else if !v.is_blocked then is_accessible_by p uid
  else v.blocked_by == some uid

/-- `routes.toggle_block_requirement`: aborts with 403 (`none`) unless the
acting user is the project owner; otherwise toggles the blocking state,
recording the blocker and the block time. -/
def toggle_block_requirement (p : Project) (v : RequirementVersion) (uid now : Nat) :
    Option RequirementVersion :=
  if p.owner != uid then none
  else if v.is_blocked then
    some { v with is_blocked := false, blocked_by := none, blocked_at := none }
  else
    some { v with is_blocked := true, blocked_by := some uid, blocked_at := some now }

/-- A project owned by user 1 and shared with user 2. -/
def projShared : Project := { owner := 1, shared := [2] }

/-- An unblocked version. -/
def vUnblocked : RequirementVersion := mkVersion 1 "A" sampleFields 1

/-- C4 is false as stated: user 2 has project access (shared) and the version
is unblocked, yet the toggle-block endpoint rejects the request with 403 —
blocking IS restricted to the project owner, even though the model-level
predicate `can_be_blocked_by` would permit user 2. -/
theorem c4_counterexample :
    is_accessible_by projShared 2 = true ∧
    vUnblocked.is_blocked = false ∧
    can_be_blocked_by vUnblocked projShared 2 = true ∧
    toggle_block_requirement projShared vUnblocked 2 7 = none := by
  decide

/-- C4 (amended): the toggle-block endpoint permits only the project owner —
every other user, shared users included, is rejected regardless of the
blocking state; when the owner blocks an unblocked version it transitions to
Blocked(owner, now).  The unused model predicate `can_be_blocked_by` would
allow any user with access to block an unblocked version. -/
theorem c4_block_restricted_to_owner (p : Project) (v : RequirementVersion)
    (uid now : Nat) :
    (uid ≠ p.owner → toggle_block_requirement p v uid now = none) ∧
    (uid = p.owner → v.is_blocked = false →
      toggle_block_requirement p v uid now =
        some { v with is_blocked := true, blocked_by := some uid, blocked_at := some now }) ∧
    (v.is_blocked = false → is_accessible_by p uid = true →
      can_be_blocked_by v p uid = true) := by
  refine ⟨?_, ?_, ?_⟩
  · intro hne
    unfold toggle_block_requirement
    rw [if_pos]
    simp only [bne_iff_ne, ne_eq]
    omega
  · intro he hb
    unfold toggle_block_requirement
    rw [if_neg, if_neg]
    · rw [hb]
      simp
    · simp only [bne_iff_ne, ne_eq, Decidable.not_not]
      omega
  · intro hb hacc
    unfold can_be_blocked_by
    by_cases ho : p.owner == uid
    · rw [if_pos ho]
    · rw [if_neg ho, if_pos (by rw [hb]; rfl)]
      exact hacc

theorem c4_block_restricted_to_owner_witness :
    toggle_block_requirement projShared vUnblocked 2 7 = none ∧
    toggle_block_requirement projShared vUnblocked 1 7 =
      some { vUnblocked with
              is_blocked := true
              blocked_by := some 1
              blocked_at := some 7 } ∧
    can_be_blocked_by vUnblocked projShared 2 = true :=
  ⟨(c4_block_restricted_to_owner projShared vUnblocked 2 7).1 (by decide),
   (c4_block_restricted_to_owner projShared vUnblocked 1 7).2.1 (by decide) (by decide),
   (c4_block_restricted_to_owner projShared vUnblocked 2 7).2.2 (by decide) (by decide)⟩

/-- C5: `can_be_edited_by` holds exactly when the version is unblocked, or the
user is the recorded blocker, or the user is the project owner. -/
theorem c5_can_edit_characterization (v : RequirementVersion) (p : Project) (uid : Nat) :
    can_be_edited_by v p uid = true ↔
      (v.is_blocked = false ∨ v.blocked_by = some uid ∨ p.owner = uid) := by
  unfold can_be_edited_by
  by_cases hb : v.is_blocked <;> simp [hb]

/-! ## C6: the comment thread (`routes.get_comments`)

The route filters out soft-deleted comments (`filter_by(is_deleted=False)`,
ordered by `created_at`; `cs` is that creation-ordered list), then builds a
tree: every non-deleted comment gets a node keyed by id, replies are appended
to their parent's node when the parent id is among the non-deleted comments,
and only parentless comments become roots.  A reply whose parent is missing
from the dictionary is attached nowhere.  The recursion is fuelled by the
number of visible comments, which bounds the parent-chain depth whenever ids
are unique. -/

/-- A `RequirementComment` row. -/
structure Comment where
  id : Nat
  author : Nat
  text : String
  parent_comment_id : Option Nat
  is_deleted : Bool
deriving DecidableEq, Repr

/-- A node of the JSON thread: the comment with its nested replies. -/
inductive CommentTree where
  | node (c : Comment) (replies : List CommentTree)

/-- The non-deleted comments, in stored order. -/
def visibleComments (cs : List Comment) : List Comment :=
  cs.filter (fun c => !c.is_deleted)

/-- The replies of comment `pid`, in stored order. -/
def childrenOf (cs : List Comment) (pid : Nat) : List Comment :=
  cs.filter (fun c => c.parent_comment_id == some pid)

/-- Build the reply tree below one comment. -/
def buildTree : Nat → List Comment → Comment → CommentTree
  | 0, _, c => .node c []
  | fuel + 1, cs, c => .node c ((childrenOf cs c.id).map (buildTree fuel cs))

/-- `routes.get_comments`: the forest of parentless visible comments with
their nested visible replies. -/
def get_comments (cs : List Comment) : List CommentTree :=
  ((visibleComments cs).filter (fun c => c.parent_comment_id == none)).map
    (buildTree (visibleComments cs).length (visibleComments cs))

/-- All comment ids appearing in a tree, down to the given depth. -/
def treeIds : Nat → CommentTree → List Nat
  | 0, .node c _ => [c.id]
  | fuel + 1, .node c rs => c.id :: (rs.map (treeIds fuel)).flatten

/-- All comment ids appearing anywhere in the returned thread. -/
def threadIds (cs : List Comment) : List Nat :=
  ((get_comments cs).map (treeIds (visibleComments cs).length)).flatten

theorem mem_treeIds_buildTree (vis : List Comment) :
    ∀ (fuel : Nat) (c : Comment), c ∈ vis →
      ∀ i, i ∈ treeIds fuel (buildTree fuel vis c) →
      ∃ d, d ∈ vis ∧ d.id = i ∧
        (d = c ∨ ∃ p, p ∈ vis ∧ d.parent_comment_id = some p.id) := by
  intro fuel
  induction fuel with
  | zero =>
    intro c hc i hi
    simp only [treeIds, buildTree, List.mem_singleton] at hi
    exact ⟨c, hc, hi.symm, Or.inl rfl⟩
  | succ fuel ih =>
    intro c hc i hi
    simp only [treeIds, buildTree, List.mem_cons, List.map_map, List.mem_flatten,
      List.mem_map, Function.comp] at hi
    rcases hi with rfl | ⟨m, ⟨ch, hch, rfl⟩, him⟩
    · exact ⟨c, hc, rfl, Or.inl rfl⟩
    · have hchvis : ch ∈ vis := (List.mem_filter.mp hch).1
      have hchpar : ch.parent_comment_id = some c.id := by
        have := (List.mem_filter.mp hch).2
        exact beq_iff_eq.mp this
      obtain ⟨d, hdvis, hdi, hcase⟩ := ih ch hchvis i him
      rcases hcase with rfl | ⟨p, hpvis, hppar⟩
      · exact ⟨d, hdvis, hdi, Or.inr ⟨c, hc, hchpar⟩⟩
      · exact ⟨d, hdvis, hdi, Or.inr ⟨p, hpvis, hppar⟩⟩

theorem mem_threadIds {cs : List Comment} {i : Nat} (hi : i ∈ threadIds cs) :
    ∃ d, d ∈ visibleComments cs ∧ d.id = i ∧
      (d.parent_comment_id = none ∨
        ∃ p, p ∈ visibleComments cs ∧ d.parent_comment_id = some p.id) := by
  unfold threadIds get_comments at hi
  simp only [List.map_map, List.mem_flatten, List.mem_map, Function.comp] at hi
  rcases hi with ⟨m, ⟨root, hroot, rfl⟩, him⟩
  have hrootvis : root ∈ visibleComments cs := (List.mem_filter.mp hroot).1
  have hrootpar : root.parent_comment_id = none := by
    have := (List.mem_filter.mp hroot).2
    exact beq_iff_eq.mp this
  obtain ⟨d, hdvis, hdi, hcase⟩ :=
    mem_treeIds_buildTree (visibleComments cs) (visibleComments cs).length
      root hrootvis i him
  rcases hcase with rfl | ⟨p, hpvis, hppar⟩
  · exact ⟨d, hdvis, hdi, Or.inl hrootpar⟩
  · exact ⟨d, hdvis, hdi, Or.inr ⟨p, hpvis, hppar⟩⟩

/-- A soft-deleted root comment. -/
def cDel : Comment :=
  { id := 1, author := 1, text := "x", parent_comment_id := none, is_deleted := true }

/-- A live reply to the deleted comment. -/
def cReply : Comment :=
  { id := 2, author := 2, text := "y", parent_comment_id := some 1, is_deleted := false }

/-- C6 is false as stated: after soft-deleting comment 1, its non-deleted
reply (comment 2) does NOT remain visible — the returned thread is empty,
because the reply is orphaned and never attached to a root. -/
theorem c6_counterexample :
    cReply.is_deleted = false ∧ get_comments [cDel, cReply] = [] :=
  ⟨rfl, rfl⟩

/-- C6 (amended): soft-deleting a comment hides the comment itself from the
thread, and also hides its replies: a reply whose parent comment is deleted is
dropped from the returned thread entirely (it is neither a root nor attached
to any surviving node), even if the reply itself is not deleted. -/
theorem c6_deleted_comment_drops_replies (cs : List Comment) (c r : Comment)
    (hnodup : (cs.map (fun x => x.id)).Nodup) (hc : c ∈ cs)
    (hcdel : c.is_deleted = true) (hr : r ∈ cs)
    (hrpar : r.parent_comment_id = some c.id) :
    c.id ∉ threadIds cs ∧ r.id ∉ threadIds cs := by
  have hnotvis : ∀ d, d ∈ visibleComments cs → d ≠ c := by
    intro d hdvis hdc
    subst hdc
    have := (List.mem_filter.mp hdvis).2
    rw [hcdel] at this
    simp at this
  constructor
  · intro hmem
    obtain ⟨d, hdvis, hdi, _⟩ := mem_threadIds hmem
    have hdcs : d ∈ cs := (List.mem_filter.mp hdvis).1
    have hdc : d = c := List.inj_on_of_nodup_map hnodup hdcs hc hdi
    exact hnotvis d hdvis hdc
  · intro hmem
    obtain ⟨d, hdvis, hdi, hcase⟩ := mem_threadIds hmem
    have hdcs : d ∈ cs := (List.mem_filter.mp hdvis).1
    have hdr : d = r := List.inj_on_of_nodup_map hnodup hdcs hr hdi
    subst hdr
    rcases hcase with hnone | ⟨p, hpvis, hppar⟩
    · rw [hrpar] at hnone
      exact Option.noConfusion hnone
    · rw [hrpar] at hppar
      have hpid : c.id = p.id := Option.some.inj hppar
      have hpcs : p ∈ cs := (List.mem_filter.mp hpvis).1
      have hpc : p = c := List.inj_on_of_nodup_map hnodup hpcs hc hpid.symm
      exact hnotvis p hpvis hpc

theorem c6_deleted_comment_drops_replies_witness :
    cDel.id ∉ threadIds [cDel, cReply] ∧ cReply.id ∉ threadIds [cDel, cReply] :=
  c6_deleted_comment_drops_replies [cDel, cReply] cDel cReply
    (by decide) (by decide) rfl (by decide) rfl

/-! ## C7: notification fan-out for comments
(`notifications.notify_comment_added`, `notifications.find_user_by_mention`)

Notifications are modelled by the pairs (recipient user id, notification
type).  `mentions` is the deduplicated token list produced by
`parse_mentions`; distinct tokens may still resolve to the same user.  The
SQL queries `.first()` become `List.find?` over the user table in query
order; `LIKE 'prefix%'` becomes a prefix test on the email. -/

/-- `mention.split('@')[0]` (the whole token when it has no `@`). -/
def mentionLocalPart (mention : String) : String :=
  ⟨mention.data.takeWhile (fun c => c != '@')⟩

/-- The fallback branch of `find_user_by_mention`: first user whose email
starts with the token's local part, accepted only with project access. -/
def prefixSearch (users : List User) (p : Project) (mention : String) : Option User :=
  match users.find? (fun u => (mentionLocalPart mention).data.isPrefixOf u.email.data) with
  | some u => if is_accessible_by p u.id then some u else none
  | none => none

/-- `notifications.find_user_by_mention`: exact email match with access check,
else prefix search with access check, else `none`. -/
def find_user_by_mention (users : List User) (p : Project) (mention : String) :
    Option User :=
  match users.find? (fun u => u.email == mention) with
  | some u => if is_accessible_by p u.id then some u else prefixSearch users p mention
  | none => prefixSearch users p mention

/-- The first loop of `notify_comment_added`: one `mention` notification per
mention token that resolves to a user other than the actor. -/
def mentionNotifs (users : List User) (p : Project) (actor : Nat)
    (mentions : List String) : List (Nat × String) :=
  mentions.filterMap (fun m =>
    (find_user_by_mention users p m).bind
      (fun u => if u.id ≠ actor then some (u.id, "mention") else none))

/-- `mentioned_user_ids`: the ids of all mention-resolved users. -/
def mentionedIds (users : List User) (p : Project) (mentions : List String) : List Nat :=
  mentions.filterMap (fun m => (find_user_by_mention users p m).map (fun u => u.id))

/-- The second loop of `notify_comment_added`: a generic `comment`
notification for every project member (owner plus shared) who is neither the
actor nor a mention-resolved user. -/
def commentNotifs (users : List User) (p : Project) (actor : Nat)
    (mentions : List String) : List (Nat × String) :=
  (p.owner :: p.shared).filterMap (fun uid =>
    if uid ≠ actor ∧ uid ∉ mentionedIds users p mentions
    then some (uid, "comment") else none)

/-- `notifications.notify_comment_added`: mention notifications first, then
the generic comment notifications. -/
def notify_comment_added (users : List User) (p : Project) (actor : Nat)
    (mentions : List String) : List (Nat × String) :=
  mentionNotifs users p actor mentions ++ commentNotifs users p actor mentions

theorem mem_mentionNotifs {users : List User} {p : Project} {actor : Nat}
    {mentions : List String} {uid : Nat} {s : String} :
    (uid, s) ∈ mentionNotifs users p actor mentions ↔
      s = "mention" ∧ uid ≠ actor ∧
        ∃ m ∈ mentions, ∃ u, find_user_by_mention users p m = some u ∧ u.id = uid := by
  unfold mentionNotifs
  rw [List.mem_filterMap]
  constructor
  · rintro ⟨m, hm, hfm⟩
    rw [Option.bind_eq_some] at hfm
    rcases hfm with ⟨u, hfu, hif⟩
    by_cases hne : u.id ≠ actor
    · rw [if_pos hne] at hif
      have hpair := Option.some.inj hif
      rw [Prod.mk.injEq] at hpair
      refine ⟨hpair.2.symm, ?_, m, hm, u, hfu, hpair.1⟩
      rw [← hpair.1]
      exact hne
    · rw [if_neg hne] at hif
      exact absurd hif (by simp)
  · rintro ⟨rfl, hne, m, hm, u, hfu, huid⟩
    refine ⟨m, hm, ?_⟩
    rw [Option.bind_eq_some]
    refine ⟨u, hfu, ?_⟩
    rw [if_pos (by rw [huid]; exact hne), huid]

theorem mem_mentionedIds {users : List User} {p : Project} {mentions : List String}
    {uid : Nat} :
    uid ∈ mentionedIds users p mentions ↔
      ∃ m ∈ mentions, ∃ u, find_user_by_mention users p m = some u ∧ u.id = uid := by
  unfold mentionedIds
  rw [List.mem_filterMap]
  constructor
  · rintro ⟨m, hm, hfm⟩
    rcases Option.map_eq_some'.mp hfm with ⟨u, hfu, hid⟩
    exact ⟨m, hm, u, hfu, hid⟩
  · rintro ⟨m, hm, u, hfu, huid⟩
    refine ⟨m, hm, ?_⟩
    rw [hfu]
    simp [huid]

theorem mem_commentNotifs {users : List User} {p : Project} {actor : Nat}
    {mentions : List String} {uid : Nat} {s : String} :
    (uid, s) ∈ commentNotifs users p actor mentions ↔
      s = "comment" ∧ uid ∈ p.owner :: p.shared ∧ uid ≠ actor ∧
        uid ∉ mentionedIds users p mentions := by
  unfold commentNotifs
  rw [List.mem_filterMap]
  constructor
  · rintro ⟨v, hv, hif⟩
    by_cases hc : v ≠ actor ∧ v ∉ mentionedIds users p mentions
    · rw [if_pos hc] at hif
      have hpair := Option.some.inj hif
      rw [Prod.mk.injEq] at hpair
      exact ⟨hpair.2.symm, hpair.1 ▸ hv, hpair.1 ▸ hc.1, hpair.1 ▸ hc.2⟩
    · rw [if_neg hc] at hif
      exact absurd hif (by simp)
  · rintro ⟨rfl, hmem, hne, hnm⟩
    refine ⟨uid, hmem, ?_⟩
    rw [if_pos ⟨hne, hnm⟩]

/-- The comment author / project owner. -/
def uOwner : User := { id := 1, email := "owner@x.com" }

/-- The shared collaborator alice. -/
def uAlice : User := { id := 2, email := "alice@x.com" }

/-- C7 is false as stated: the tokens `alice@x.com` (exact email match) and
`alice` (email-prefix match) both resolve to user 2, who therefore receives
TWO `mention` notifications for one comment, not exactly one. -/
theorem c7_counterexample :
    notify_comment_added [uOwner, uAlice] projShared 1 ["alice@x.com", "alice"]
      = [(2, "mention"), (2, "mention")] := by
  decide

/-- C7 (amended): a `comment` notification goes exactly to the project members
(owner plus shared) who are neither the actor nor mention-resolved; a
`mention` notification goes exactly to the mention-resolved users other than
the actor — one per distinct resolving token, so a user reached by several
distinct tokens receives several `mention` notifications. -/
theorem c7_comment_notification_recipients (users : List User) (p : Project)
    (actor : Nat) (mentions : List String) :
    (∀ uid, (uid, "comment") ∈ notify_comment_added users p actor mentions ↔
      (uid ∈ p.owner :: p.shared ∧ uid ≠ actor ∧
        ¬ ∃ m ∈ mentions, ∃ u, find_user_by_mention users p m = some u ∧ u.id = uid)) ∧
    (∀ uid, (uid, "mention") ∈ notify_comment_added users p actor mentions ↔
      (uid ≠ actor ∧
        ∃ m ∈ mentions, ∃ u, find_user_by_mention users p m = some u ∧ u.id = uid)) := by
  constructor
  · intro uid
    unfold notify_comment_added
    rw [List.mem_append, mem_mentionNotifs, mem_commentNotifs, mem_mentionedIds]
    constructor
    · rintro (⟨hs, _, _⟩ | ⟨_, h2, h3, h4⟩)
      · exact absurd hs (by decide)
      · exact ⟨h2, h3, h4⟩
    · rintro ⟨h2, h3, h4⟩
      exact Or.inr ⟨rfl, h2, h3, h4⟩
  · intro uid
    unfold notify_comment_added
    rw [List.mem_append, mem_mentionNotifs, mem_commentNotifs]
    constructor
    · rintro (⟨_, h2, h3⟩ | ⟨hs, _, _, _⟩)
      · exact ⟨h2, h3⟩
      · exact absurd hs (by decide)
    · rintro ⟨h2, h3⟩
      exact Or.inl ⟨rfl, h2, h3⟩


/-! ## C8: in-place version update and its history entry
(`routes.update_requirement_version`)

The form supplies stripped title/description/category/status, a save type,
the custom-column values (`custom_<column>` fields) and the quantifiable
checkbox.  The route compares each tracked field with the stored value,
collects a human-readable diff map keyed by field name, updates the version
in place, and writes one `modified` history entry exactly when the diff map
is non-empty.  JSON keys `"title"`, …, `"custom_<col>"`, `"is_quantifiable"`
are modelled by the `Field` type (the `custom_` prefix keeps custom keys
disjoint from the built-in ones). -/

/-- A key of the history `changes` map. -/
inductive Field where
  | title
  | description
  | category
  | status
  | custom (name : String)
  | quantifiable
deriving DecidableEq, Repr

/-- `dict.get(k, d)` on the JSON custom data. -/
def lookupD (l : List (String × String)) (k d : String) : String :=
  match l.lookup k with
  | some v => v
  | none => d

/-- The form data of the update request, already stripped. -/
structure UpdateForm where
  title : String
  description : String
  category : String
  status : String
  save_type : String
  custom : List (String × String)
  is_quantifiable : Bool
deriving DecidableEq, Repr

/-- `value or '–'`: an empty (falsy) string displays as a dash. -/
def display (s : String) : String := if s = "" then "–" else s

/-- The status update logic: a valid submitted status wins, else the save
type picks `In Arbeit` or `Fertig`, else the status is kept. -/
def new_status (v : RequirementVersion) (form : UpdateForm) : String :=
  if form.status = "Offen" ∨ form.status = "In Arbeit" ∨ form.status = "Fertig" then
    form.status
  else if form.save_type = "intermediate" then "In Arbeit"
  else if form.save_type = "final" then "Fertig"
  else v.status

/-- The custom-column entries of the diff map, in column order. -/
def customChanges (v : RequirementVersion) (form : UpdateForm) (cols : List String) :
    List (Field × String) :=
  cols.filterMap (fun col =>
    if lookupD v.custom_data col "" ≠ lookupD form.custom col "" then
      some (Field.custom col,
        display (lookupD v.custom_data col "") ++ " → " ++
          display (lookupD form.custom col ""))
    else none)

/-- The full diff map assembled by the route: title, description, category,
status, custom columns, quantifiable flag — each included exactly when its
value changed. -/
def computeChanges (v : RequirementVersion) (form : UpdateForm) (cols : List String) :
    List (Field × String) :=
  (if v.title ≠ form.title then [(Field.title, v.title ++ " → " ++ form.title)] else []) ++
  (if v.description ≠ form.description then
    [(Field.description, "Beschreibung geändert")] else []) ++
  (if v.category.getD "" ≠ form.category then
    [(Field.category, display (v.category.getD "") ++ " → " ++ display form.category)]
   else []) ++
  (if v.status ≠ new_status v form then
    [(Field.status, v.status ++ " → " ++ new_status v form)] else []) ++
  customChanges v form cols ++
  (if lookupD v.custom_data "is_quantifiable" "false"
      ≠ (if form.is_quantifiable then "true" else "false") then
    [(Field.quantifiable,
      (if lookupD v.custom_data "is_quantifiable" "false" = "true" then "Ja" else "Nein")
        ++ " → " ++ (if form.is_quantifiable then "Ja" else "Nein"))]
   else [])

/-- Python dict assignment `d[k] = v`: replace in place or append. -/
def dictSet (l : List (String × String)) (k v : String) : List (String × String) :=
  if l.any (fun p => p.1 == k) then l.map (fun p => if p.1 == k then (k, v) else p)
  else l ++ [(k, v)]

/-- The new custom data: every project column is written from the form, then
the quantifiable flag. -/
def updateCustomData (old : List (String × String)) (cols : List String)
    (form : UpdateForm) : List (String × String) :=
  dictSet (cols.foldl (fun acc col => dictSet acc col (lookupD form.custom col "")) old)
    "is_quantifiable" (if form.is_quantifiable then "true" else "false")

/-- A history row (the fields the claim is about). -/
structure HistoryEntry where
  change_type : String
  changes : List (Field × String)
deriving DecidableEq, Repr

/-- `routes.update_requirement_version`: update the version in place and
return the optional history entry — written exactly when the diff map is
non-empty. -/
def update_requirement_version (v : RequirementVersion) (form : UpdateForm)
    (cols : List String) (actor : Nat) : RequirementVersion × Option HistoryEntry :=
  let changes := computeChanges v form cols
  ({ v with
      title := form.title
      description := form.description
      category := some form.category
      status := new_status v form
      custom_data := updateCustomData v.custom_data cols form
      last_modified_by := some actor },
   if changes ≠ [] then some { change_type := "modified", changes := changes } else none)

theorem lookup_eq_none_of_keys_ne {l : List (Field × String)} {k : Field}
    (h : ∀ p ∈ l, p.1 ≠ k) : l.lookup k = none := by
  rw [List.lookup_eq_none_iff]
  intro p hp
  simp only [bne_iff_ne, ne_eq]
  exact fun he => h p hp (he ▸ rfl)

theorem lookup_ite_singleton (c : Prop) [Decidable c] (key : Field) (s : String)
    (k : Field) :
    (if c then [(key, s)] else []).lookup k
      = if k = key then (if c then some s else none) else none := by
  by_cases hc : c <;> by_cases hk : k = key
  · subst hk
    simp [hc]
  · have hbeq : (k == key) = false := by simp [hk]
    simp [hc, List.lookup_cons, hbeq, hk]
  · subst hk
    simp [hc]
  · simp [hc, hk]

theorem lookup_ite_singleton_flip (c : Prop) [Decidable c] (key : Field) (s : String)
    (k : Field) :
    (if c then [] else [(key, s)]).lookup k
      = if k = key then (if c then none else some s) else none := by
  by_cases hc : c <;> by_cases hk : k = key
  · subst hk
    simp [hc]
  · simp [hc, hk]
  · subst hk
    simp [hc]
  · have hbeq : (k == key) = false := by simp [hk]
    simp [hc, List.lookup_cons, hbeq, hk]

theorem customChanges_keys {v : RequirementVersion} {form : UpdateForm}
    {cols : List String} :
    ∀ p ∈ customChanges v form cols, ∃ c ∈ cols, p.1 = Field.custom c := by
  intro p hp
  unfold customChanges at hp
  rw [List.mem_filterMap] at hp
  rcases hp with ⟨c, hc, hfc⟩
  by_cases hcond : lookupD v.custom_data c "" ≠ lookupD form.custom c ""
  · rw [if_pos hcond] at hfc
    have := Option.some.inj hfc
    exact ⟨c, hc, by rw [← this]⟩
  · rw [if_neg hcond] at hfc
    exact absurd hfc (by simp)

theorem lookup_customChanges_of_not_custom {v : RequirementVersion} {form : UpdateForm}
    {cols : List String} {k : Field} (hk : ∀ c, k ≠ Field.custom c) :
    (customChanges v form cols).lookup k = none := by
  apply lookup_eq_none_of_keys_ne
  intro p hp
  rcases customChanges_keys p hp with ⟨c, _, hpc⟩
  rw [hpc]
  exact fun he => hk c he.symm

theorem lookup_customChanges_of_not_mem {v : RequirementVersion} {form : UpdateForm}
    {cols : List String} {col : String} (hcol : col ∉ cols) :
    (customChanges v form cols).lookup (Field.custom col) = none := by
  apply lookup_eq_none_of_keys_ne
  intro p hp
  rcases customChanges_keys p hp with ⟨c, hc, hpc⟩
  rw [hpc]
  intro he
  have : c = col := by
    have := Field.custom.inj he
    exact this
  exact hcol (this ▸ hc)

theorem lookup_customChanges {v : RequirementVersion} {form : UpdateForm}
    {cols : List String} (hnodup : cols.Nodup) {col : String} (hcol : col ∈ cols) :
    (customChanges v form cols).lookup (Field.custom col)
      = if lookupD v.custom_data col "" ≠ lookupD form.custom col "" then
          some (display (lookupD v.custom_data col "") ++ " → " ++
            display (lookupD form.custom col ""))
        else none := by
  induction cols with
  | nil => simp at hcol
  | cons c0 rest ih =>
    have hnd := List.nodup_cons.mp hnodup
    unfold customChanges
    rw [List.filterMap_cons]
    rcases List.mem_cons.mp hcol with rfl | hcolr
    · by_cases hcond : lookupD v.custom_data col "" ≠ lookupD form.custom col ""
      · rw [if_pos hcond]
        simp only [List.lookup_cons_self]
        rw [if_pos hcond]
      · rw [if_neg hcond, if_neg hcond]
        exact lookup_customChanges_of_not_mem hnd.1
    · have hne : col ≠ c0 := fun he => hnd.1 (he ▸ hcolr)
      by_cases hcond0 : lookupD v.custom_data c0 "" ≠ lookupD form.custom c0 ""
      · rw [if_pos hcond0]
        rw [List.lookup_cons]
        have hbeq : (Field.custom col == Field.custom c0) = false := by
          simp only [beq_eq_false_iff_ne, ne_eq]
          intro he
          exact hne (Field.custom.inj he)
        rw [hbeq]
        exact ih hnd.2 hcolr
      · rw [if_neg hcond0]
        exact ih hnd.2 hcolr

theorem computeChanges_eq_nil_iff (v : RequirementVersion) (form : UpdateForm)
    (cols : List String) :
    computeChanges v form cols = [] ↔
      (v.title = form.title ∧ v.description = form.description ∧
       v.category.getD "" = form.category ∧ v.status = new_status v form ∧
       (∀ col ∈ cols, lookupD v.custom_data col "" = lookupD form.custom col "") ∧
       lookupD v.custom_data "is_quantifiable" "false"
         = (if form.is_quantifiable then "true" else "false")) := by
  unfold computeChanges customChanges
  simp only [List.append_eq_nil, List.filterMap_eq_nil_iff, ite_eq_right_iff, ne_eq,
    List.cons_ne_nil, imp_false, not_not, Option.some_ne_none]
  tauto


/-- A version whose description is `"a"`. -/
def vDesc : RequirementVersion :=
  mkVersion 1 "A"
    { title := "t", description := "a", category := none, status := "Offen",
      custom_data := [] } 1

/-- A form that only changes the description, to `"b"`. -/
def formDesc : UpdateForm :=
  { title := "t", description := "b", category := "", status := "Offen",
    save_type := "intermediate", custom := [], is_quantifiable := false }

/-- C8 is false as stated: changing only the description writes a `modified`
entry whose `description` value is the fixed string "Beschreibung geändert" —
not the "old → new" rendering `"a → b"`. -/
theorem c8_counterexample :
    (update_requirement_version vDesc formDesc [] 7).2
      = some { change_type := "modified",
               changes := [(Field.description, "Beschreibung geändert")] } ∧
    "Beschreibung geändert" ≠ vDesc.description ++ " → " ++ formDesc.description := by
  constructor
  · decide
  · decide

/-- C8 (amended): a `modified` history entry is written iff at least one
tracked field's value actually changed, and the `changes` map contains exactly
the changed fields; title, category, status and custom columns map to an
"old → new" string (with `–` standing for an empty value and Ja/Nein for the
quantifiable flag), while a changed description maps to the fixed string
"Beschreibung geändert" instead of an "old → new" rendering. -/
theorem c8_modification_history (v : RequirementVersion) (form : UpdateForm)
    (cols : List String) (actor : Nat) (hnodup : cols.Nodup) :
    ((update_requirement_version v form cols actor).2 = none ↔
      (v.title = form.title ∧ v.description = form.description ∧
       v.category.getD "" = form.category ∧ v.status = new_status v form ∧
       (∀ col ∈ cols, lookupD v.custom_data col "" = lookupD form.custom col "") ∧
       lookupD v.custom_data "is_quantifiable" "false"
         = (if form.is_quantifiable then "true" else "false"))) ∧
    (∀ e, (update_requirement_version v form cols actor).2 = some e →
      e.change_type = "modified" ∧ e.changes = computeChanges v form cols) ∧
    ((computeChanges v form cols).lookup Field.title
      = if v.title ≠ form.title then some (v.title ++ " → " ++ form.title) else none) ∧
    ((computeChanges v form cols).lookup Field.description
      = if v.description ≠ form.description then some "Beschreibung geändert" else none) ∧
    ((computeChanges v form cols).lookup Field.category
      = if v.category.getD "" ≠ form.category then
          some (display (v.category.getD "") ++ " → " ++ display form.category)
        else none) ∧
    ((computeChanges v form cols).lookup Field.status
      = if v.status ≠ new_status v form then
          some (v.status ++ " → " ++ new_status v form)
        else none) ∧
    (∀ col ∈ cols, (computeChanges v form cols).lookup (Field.custom col)
      = if lookupD v.custom_data col "" ≠ lookupD form.custom col "" then
          some (display (lookupD v.custom_data col "") ++ " → " ++
            display (lookupD form.custom col ""))
        else none) ∧
    ((computeChanges v form cols).lookup Field.quantifiable
      = if lookupD v.custom_data "is_quantifiable" "false"
            ≠ (if form.is_quantifiable then "true" else "false") then
          some ((if lookupD v.custom_data "is_quantifiable" "false" = "true"
              then "Ja" else "Nein")
            ++ " → " ++ (if form.is_quantifiable then "Ja" else "Nein"))
        else none) := by
  have h2 : (update_requirement_version v form cols actor).2
      = if computeChanges v form cols ≠ [] then
          some { change_type := "modified", changes := computeChanges v form cols }
        else none := rfl
  refine ⟨?_, ?_, ?_, ?_, ?_, ?_, ?_, ?_⟩
  · rw [h2]
    by_cases hch : computeChanges v form cols = []
    · rw [if_neg (fun hne => hne hch)]
      exact iff_of_true rfl ((computeChanges_eq_nil_iff v form cols).mp hch)
    · rw [if_pos hch]
      exact iff_of_false (by simp)
        (fun hconj => hch ((computeChanges_eq_nil_iff v form cols).mpr hconj))
  · intro e he
    rw [h2] at he
    by_cases hch : computeChanges v form cols = []
    · rw [if_neg (fun hne => hne hch)] at he
      exact absurd he (by simp)
    · rw [if_pos hch] at he
      have := Option.some.inj he
      rw [← this]
      exact ⟨rfl, rfl⟩
  · have hcust : (customChanges v form cols).lookup Field.title = none :=
      @lookup_customChanges_of_not_custom v form cols Field.title
        (fun c h => Field.noConfusion h)
    unfold computeChanges
    by_cases hc : v.title = form.title <;>
      simp [List.lookup_append, lookup_ite_singleton, lookup_ite_singleton_flip, hcust, hc]
  · have hcust : (customChanges v form cols).lookup Field.description = none :=
      @lookup_customChanges_of_not_custom v form cols Field.description
        (fun c h => Field.noConfusion h)
    unfold computeChanges
    by_cases hc : v.description = form.description <;>
      simp [List.lookup_append, lookup_ite_singleton, lookup_ite_singleton_flip, hcust, hc]
  · have hcust : (customChanges v form cols).lookup Field.category = none :=
      @lookup_customChanges_of_not_custom v form cols Field.category
        (fun c h => Field.noConfusion h)
    unfold computeChanges
    by_cases hc : v.category.getD "" = form.category <;>
      simp [List.lookup_append, lookup_ite_singleton, lookup_ite_singleton_flip, hcust, hc]
  · have hcust : (customChanges v form cols).lookup Field.status = none :=
      @lookup_customChanges_of_not_custom v form cols Field.status
        (fun c h => Field.noConfusion h)
    unfold computeChanges
    by_cases hc : v.status = new_status v form <;>
      simp [List.lookup_append, lookup_ite_singleton, lookup_ite_singleton_flip, hcust, hc]
  · intro col hcol
    have hcust := @lookup_customChanges v form cols hnodup col hcol
    unfold computeChanges
    by_cases hc : lookupD v.custom_data col "" = lookupD form.custom col "" <;>
      simp [List.lookup_append, lookup_ite_singleton, lookup_ite_singleton_flip, hcust, hc]
  · have hcust : (customChanges v form cols).lookup Field.quantifiable = none :=
      @lookup_customChanges_of_not_custom v form cols Field.quantifiable
        (fun c h => Field.noConfusion h)
    unfold computeChanges
    by_cases hc : lookupD v.custom_data "is_quantifiable" "false"
        = (if form.is_quantifiable then "true" else "false") <;>
      simp [List.lookup_append, lookup_ite_singleton, lookup_ite_singleton_flip, hcust, hc]

theorem c8_modification_history_witness :
    ((computeChanges vDesc formDesc []).lookup Field.description
      = if vDesc.description ≠ formDesc.description then some "Beschreibung geändert"
        else none) ∧
    ((computeChanges vDesc formDesc []).lookup Field.title
      = if vDesc.title ≠ formDesc.title then
          some (vDesc.title ++ " → " ++ formDesc.title)
        else none) :=
  ⟨(c8_modification_history vDesc formDesc [] 7 (by decide)).2.2.2.1,
   (c8_modification_history vDesc formDesc [] 7 (by decide)).2.2.1⟩

end StudyProject
